import Mathlib

/-!
# netutils: channel pumps and delimiter framing over a TCP connection

A shallow embedding of `netutil.go`.

* Go `error` values are modelled by `GoError`; a possibly-nil `error` is an
  `Option GoError`.
* A connection is modelled by the results its `Read` / `Write` calls return, in
  call order (a script).  A call for which the script has no entry never
  returns, so the goroutine issuing it stays blocked.
* An unbuffered channel is modelled by the sequence of values that cross it.  A
  receive-only byte channel handed to a framer is the list of bytes its producer
  will still deliver together with a flag telling whether the producer closes
  the channel afterwards.
* A goroutine is modelled by the state it leaves behind once it has returned,
  panicked or parked forever.  The `DEBUG` logging statements only print and are
  left out.
-/

namespace Netutils

/-! ## Errors -/

/-- Go `error` values as `IsEOF` can tell them apart: the `io.EOF` sentinel (compared
by identity), a `*net.OpError` with its fields (the inner `Err` may be nil), and any
other dynamic type, which is observed through its `Error()` string only. -/
inductive GoError where
  | EOF : GoError
  | OpError (Op Net : String) (Source Addr : Option String) (Err : GoError) : GoError
  | OpErrorNilErr (Op Net : String) (Source Addr : Option String) : GoError
  | other (msg : String) : GoError
  deriving DecidableEq, Repr

/-- How a goroutine stands: parked forever on an operation that never completes,
returned from its function, or stopped by a panic (`log.Panic` or a run-time panic). -/
inductive Status where
  | blocked : Status
  | finished : Status
  | panicked : Status
  deriving DecidableEq, Repr

/-- Head of the message of a `*net.OpError`, as `net.OpError.Error` of the Go
standard library builds it from `Op`, `Net`, `Source` and `Addr`. -/
def opErrorHead (Op Net : String) (Source Addr : Option String) : String :=
  let s := Op
  let s := if Net != "" then s ++ " " ++ Net else s
  let s := match Source with
    | some src => s ++ " " ++ src
    | none => s
  let s := match Addr with
    | some addr => (if Source.isSome then s ++ "->" else s ++ " ") ++ addr
    | none => s
  s ++ ": "

/-- The `Error()` method.  `none` is the nil-pointer panic of calling `Error()` on the
nil `Err` field of a `*net.OpError`. -/
def GoError.Error : GoError → Option String
  | .EOF => some "EOF"
  | .OpError Op Net Source Addr Err =>
    match Err.Error with
    | some m => some (opErrorHead Op Net Source Addr ++ m)
    | none => none
  | .OpErrorNilErr _ _ _ _ => none
  | .other msg => some msg

/-- Embedding of `IsEOF`.  `none` is a run-time panic inside the call. -/
def IsEOF (err : Option GoError) : Option Bool :=
  match err with
  | none => some false
  | some .EOF => some true
  | some (.OpError _ _ _ _ Err) =>
    match Err.Error with
    | none => none
    | some m =>
      if m = "use of closed network connection" then some true
      else if m = "connection reset by peer" then some true
      else some false
  | some (.OpErrorNilErr _ _ _ _) => none
  | some (.other msg) =>
    if msg = "use of closed network connection" then some true
    else some false

/-! ## Reader pump -/

/-- What one `con.Read(memblock)` call returns: the bytes it stored at the start of
the buffer (`n` is their number) and the error. -/
structure ReadResult where
  data : List UInt8
  err : Option GoError
  deriving DecidableEq, Repr

/-- Number of bytes reported by a read. -/
def ReadResult.n (r : ReadResult) : Nat := r.data.length

/-- What the goroutine of `TCPReader` leaves behind: the bytes sent on the channel,
whether the channel was closed, the number of `con.Read` calls that returned, the
reads the connection still had in store, and how the goroutine stands. -/
structure ReaderState where
  sent : List UInt8
  closed : Bool
  reads : Nat
  rest : List ReadResult
  status : Status
  deriving DecidableEq, Repr

/-- Buffer contents after a read stored `data` at its start. -/
def storeRead (memblock data : List UInt8) : List UInt8 :=
  (data ++ memblock.drop data.length).take memblock.length

/-- The loop `for i := 0; i < n; i++ { send<-memblock[i] }`, with `todo = n - i`.
The flag is false when `memblock[i]` was out of range. -/
def TCPReader.sendLoop (memblock : List UInt8) : Nat → Nat → List UInt8 → List UInt8 × Bool
  | 0, _, sent => (sent, true)
  | todo + 1, i, sent =>
    match memblock[i]? with
    | none => (sent, false)
    | some b => TCPReader.sendLoop memblock todo (i + 1) (sent ++ [b])

/-- The loop `for !EOF { ... }` of the goroutine of `TCPReader`, entered with `EOF`
false, over the results of the reads still to come. -/
def TCPReader.loop : List ReadResult → List UInt8 → List UInt8 → Nat → ReaderState
  | [], _, sent, reads => ⟨sent, false, reads, [], .blocked⟩
  | r :: script, memblock, sent, reads =>
    let memblock := storeRead memblock r.data
    let n := r.n
    match IsEOF r.err with
    | none => ⟨sent, false, reads + 1, script, .panicked⟩
    | some EOF =>
      if !EOF && r.err.isSome then ⟨sent, false, reads + 1, script, .panicked⟩
      else
        match TCPReader.sendLoop memblock n 0 sent with
        | (sent, false) => ⟨sent, false, reads + 1, script, .panicked⟩
        | (sent, true) =>
          if EOF then ⟨sent, true, reads + 1, script, .finished⟩
          else TCPReader.loop script memblock sent (reads + 1)

/-- Embedding of `TCPReader` on a connection whose reads return `script`. -/
def TCPReader (script : List ReadResult) : ReaderState :=
  TCPReader.loop script (List.replicate 256 0) [] 0

/-! ## Writer pump -/

/-- What one `con.Write(p)` call returns: the number of bytes of `p` the connection
accepted and the error. -/
structure WriteResult where
  n : Nat
  err : Option GoError
  deriving DecidableEq, Repr

/-- The write side of the connection as the goroutine of `TCPWriter` leaves it: the
slices handed to `con.Write` in call order, the bytes the connection accepted, and
the number of `con.Close` calls. -/
structure Conn where
  calls : List (List UInt8)
  wire : List UInt8
  closes : Nat
  deriving DecidableEq, Repr

/-- A connection nothing has been done to yet. -/
def Conn.fresh : Conn := ⟨[], [], 0⟩

/-- Effect on the connection of `con.Write(p)` returning `r`. -/
def Conn.Write (con : Conn) (p : List UInt8) (r : WriteResult) : Conn :=
  { con with calls := con.calls ++ [p], wire := con.wire ++ p.take r.n }

/-- Effect on the connection of `con.Close()`. -/
def Conn.Close (con : Conn) : Conn :=
  { con with closes := con.closes + 1 }

/-- What the goroutine of `TCPWriter` leaves behind: the connection, the write
results and the blocks it did not get to, the error printed when `con.Close` failed,
and how the goroutine stands. -/
structure WriterState where
  con : Conn
  script : List WriteResult
  pending : List (List UInt8)
  logged : Option GoError
  status : Status
  deriving DecidableEq, Repr

/-- The loop
`for n, err := con.Write(block); n < len(block) || err != nil; n, err = con.Write(block[n:])`
from its condition on: `n` and `err` are the results of the latest write and `script`
holds the results of the writes still to come. -/
def TCPWriter.writeLoop (block : List UInt8) (script : List WriteResult) (n : Nat)
    (err : Option GoError) (con : Conn) : Status × Conn × List WriteResult :=
  if n < block.length || err.isSome then
    match err with
    | some _ => (.panicked, con, script)
    | none =>
      match script with
      | [] => (.blocked, con, [])
      | r :: script => TCPWriter.writeLoop block script r.n r.err (con.Write (block.drop n) r)
  else (.finished, con, script)

/-- The body of `for block := range recv` for one block: the init statement
`n, err := con.Write(block)` followed by the loop. -/
def TCPWriter.writeBlock (block : List UInt8) :
    List WriteResult → Conn → Status × Conn × List WriteResult
  | [], con => (.blocked, con, [])
  | r :: script, con => TCPWriter.writeLoop block script r.n r.err (con.Write block r)

/-- The goroutine of `TCPWriter`: `for block := range recv { ... }` over the blocks
sent on the channel, then `con.Close()`.  `chanClosed` tells whether the caller closes
the channel after the last block; `closeErr` is what `con.Close` returns. -/
def TCPWriter.pump (chanClosed : Bool) (closeErr : Option GoError) :
    List (List UInt8) → List WriteResult → Conn → WriterState
  | [], script, con =>
    if chanClosed then ⟨con.Close, script, [], closeErr, .finished⟩
    else ⟨con, script, [], none, .blocked⟩
  | block :: blocks, script, con =>
    match TCPWriter.writeBlock block script con with
    | (.finished, con, script) => TCPWriter.pump chanClosed closeErr blocks script con
    | (status, con, script) => ⟨con, script, blocks, none, status⟩

/-- Embedding of `TCPWriter` on a fresh connection whose writes return `script`, fed
`blocks` on the returned channel. -/
def TCPWriter (script : List WriteResult) (closeErr : Option GoError)
    (blocks : List (List UInt8)) (chanClosed : Bool) : WriterState :=
  TCPWriter.pump chanClosed closeErr blocks script Conn.fresh

/-- The write results of a connection on which the write of each of `blocks` accepts
the whole block with no error. -/
def acceptWhole (blocks : List (List UInt8)) : List WriteResult :=
  blocks.map fun block => ⟨block.length, none⟩

/-- The results of `k` writes that each accept exactly one byte with no error. -/
def acceptOneByte (k : Nat) : List WriteResult :=
  List.replicate k ⟨1, none⟩

/-! ## Delimiter framers -/

/-- A receive-only byte channel as a consumer sees it: the bytes its producer will
still deliver, and whether the producer closes the channel after them. -/
structure ByteChan where
  pending : List UInt8
  closed : Bool
  deriving DecidableEq, Repr

/-- The loop `for char := range recv` of `ReadDelim` with `line` accumulated so far.
`none`: the channel is drained but never closed, so the receive never returns. -/
def ReadDelim.loop (delim : UInt8) (closed : Bool) :
    List UInt8 → List UInt8 → Option (List UInt8 × Bool × ByteChan)
  | [], line => if closed then some (line, true, ⟨[], true⟩) else none
  | char :: pending, line =>
    if char = delim then some (line, false, ⟨pending, closed⟩)
    else ReadDelim.loop delim closed pending (line ++ [char])

/-- Embedding of `ReadDelim`: the returned `(line, EOF)` and the channel left behind. -/
def ReadDelim (recv : ByteChan) (delim : UInt8) : Option (List UInt8 × Bool × ByteChan) :=
  ReadDelim.loop delim recv.closed recv.pending []

/-- Embedding of `Readline`. -/
def Readline (recv : ByteChan) : Option (List UInt8 × Bool × ByteChan) :=
  ReadDelim recv 10

/-- The frame channel as the goroutine of `ReadDelims` leaves it: the frames sent on
it in order, and whether it was closed. -/
structure FrameChan where
  frames : List (List UInt8)
  closed : Bool
  deriving DecidableEq, Repr

/-- The loop `for char := range recv` of the goroutine of `ReadDelims`, with `line`
accumulated so far and `lines` the frames sent so far. -/
def ReadDelims.loop (delim : UInt8) (closed : Bool) :
    List UInt8 → List UInt8 → List (List UInt8) → FrameChan
  | [], _, lines => ⟨lines, closed⟩
  | char :: pending, line, lines =>
    if char = delim then ReadDelims.loop delim closed pending [] (lines ++ [line])
    else ReadDelims.loop delim closed pending (line ++ [char]) lines

/-- Embedding of `ReadDelims`. -/
def ReadDelims (recv : ByteChan) (delim : UInt8) : FrameChan :=
  ReadDelims.loop delim recv.closed recv.pending [] []

/-- Embedding of `Readlines`. -/
def Readlines (recv : ByteChan) : FrameChan :=
  ReadDelims recv 10

/-- Successive `ReadDelim` calls by one consumer on the same channel: the byte
sequences returned by the calls before the first call that returns `EOF = true`.
`fuel` bounds the number of calls; `none` when a call never returns or `fuel` calls
did not reach one with `EOF = true`. -/
def ReadDelim.successive (delim : UInt8) : Nat → ByteChan → Option (List (List UInt8))
  | 0, _ => none
  | fuel + 1, recv =>
    match ReadDelim recv delim with
    | none => none
    | some (_, true, _) => some []
    | some (line, false, recv) =>
      match ReadDelim.successive delim fuel recv with
      | none => none
      | some lines => some (line :: lines)

/-! ## The EOF classifier -/

/-- C8. `IsEOF(nil)` is false, `IsEOF(io.EOF)` is true, and an error that is neither
the sentinel nor a `*net.OpError` and whose message is not
"use of closed network connection" is classified as not EOF. -/
theorem IsEOF_base_cases :
    IsEOF none = some false ∧
    IsEOF (some GoError.EOF) = some true ∧
    ∀ msg : String, msg ≠ "use of closed network connection" →
      IsEOF (some (GoError.other msg)) = some false := by
  refine ⟨rfl, rfl, ?_⟩
  intro msg hmsg
  simp [IsEOF, hmsg]

theorem IsEOF_base_cases_witness :
    IsEOF none = some false ∧ IsEOF (some GoError.EOF) = some true ∧
    IsEOF (some (GoError.other "EOF")) = some false ∧
    IsEOF (some (GoError.other "boom")) = some false :=
  ⟨IsEOF_base_cases.1, IsEOF_base_cases.2.1,
    IsEOF_base_cases.2.2 "EOF" (by decide), IsEOF_base_cases.2.2 "boom" (by decide)⟩

/-- C9. For a `*net.OpError` whose inner error is present and renders as `msg`, `IsEOF`
returns true exactly when `msg` is "use of closed network connection" or
"connection reset by peer"; the fields `Op`, `Net`, `Source` and `Addr` of the
wrapper, and with them its own message, have no influence. -/
theorem IsEOF_OpError (Op Net : String) (Source Addr : Option String) (inner : GoError)
    (msg : String) (hmsg : inner.Error = some msg) :
    IsEOF (some (GoError.OpError Op Net Source Addr inner)) =
      some (decide (msg = "use of closed network connection" ∨
        msg = "connection reset by peer")) ∧
    ∀ (Op2 Net2 : String) (Source2 Addr2 : Option String),
      IsEOF (some (GoError.OpError Op2 Net2 Source2 Addr2 inner)) =
        IsEOF (some (GoError.OpError Op Net Source Addr inner)) := by
  refine ⟨?_, fun _ _ _ _ => rfl⟩
  simp only [IsEOF, hmsg]
  by_cases h1 : msg = "use of closed network connection"
  · simp [h1]
  · by_cases h2 : msg = "connection reset by peer"
    · simp [h2]
    · simp [h1, h2]

theorem IsEOF_OpError_witness :
    IsEOF (some (GoError.OpError "read" "tcp" none (some "10.0.0.1:80")
      (GoError.other "connection reset by peer"))) = some true ∧
    IsEOF (some (GoError.OpError "read" "tcp" none none
      (GoError.other "use of closed network connection"))) = some true ∧
    IsEOF (some (GoError.OpError "use of closed network connection" "" none none
      (GoError.other "i/o timeout"))) = some false ∧
    IsEOF (some (GoError.OpError "read" "tcp" none none GoError.EOF)) = some false :=
  ⟨(IsEOF_OpError "read" "tcp" none (some "10.0.0.1:80")
      (GoError.other "connection reset by peer") "connection reset by peer" rfl).1,
   (IsEOF_OpError "read" "tcp" none none
      (GoError.other "use of closed network connection")
      "use of closed network connection" rfl).1,
   (IsEOF_OpError "use of closed network connection" "" none none
      (GoError.other "i/o timeout") "i/o timeout" rfl).1,
   (IsEOF_OpError "read" "tcp" none none GoError.EOF "EOF" rfl).1⟩

/-- C10. For an error that is neither the sentinel nor a `*net.OpError`, `IsEOF` returns
true exactly when its message is "use of closed network connection"; an unwrapped
"connection reset by peer" is not EOF. -/
theorem IsEOF_other :
    (∀ msg : String, IsEOF (some (GoError.other msg)) =
      some (decide (msg = "use of closed network connection"))) ∧
    IsEOF (some (GoError.other "connection reset by peer")) = some false := by
  refine ⟨?_, by decide⟩
  intro msg
  by_cases h : msg = "use of closed network connection" <;> simp [IsEOF, h]

/-! ## The blocking framer -/

theorem ReadDelim.loop_delim (d : UInt8) (closed : Bool) (pre rest line : List UInt8)
    (hpre : d ∉ pre) :
    ReadDelim.loop d closed (pre ++ d :: rest) line =
      some (line ++ pre, false, ⟨rest, closed⟩) := by
  induction pre generalizing line with
  | nil => simp [ReadDelim.loop]
  | cons c pre ih =>
    have hc : c ≠ d := fun h => hpre (by simp [h])
    have hd : d ∉ pre := fun h => hpre (List.mem_cons_of_mem _ h)
    simp [ReadDelim.loop, hc, ih _ hd]

theorem ReadDelim.loop_closed (d : UInt8) (s line : List UInt8) (hs : d ∉ s) :
    ReadDelim.loop d true s line = some (line ++ s, true, ⟨[], true⟩) := by
  induction s generalizing line with
  | nil => simp [ReadDelim.loop]
  | cons c s ih =>
    have hc : c ≠ d := fun h => hs (by simp [h])
    have hd : d ∉ s := fun h => hs (List.mem_cons_of_mem _ h)
    simp [ReadDelim.loop, hc, ih _ hd]

theorem ReadDelim.loop_eof_iff (d : UInt8) (closed : Bool) (s line out : List UInt8)
    (eof : Bool) (ch : ByteChan) (h : ReadDelim.loop d closed s line = some (out, eof, ch)) :
    eof = true ↔ d ∉ s ∧ closed = true := by
  induction s generalizing line with
  | nil =>
    cases closed <;> simp [ReadDelim.loop] at h
    simp [h.2.1]
  | cons c s ih =>
    by_cases hc : c = d
    · simp [ReadDelim.loop, hc] at h
      simp [hc, ← h.2.1]
    · simp only [ReadDelim.loop, hc, if_false] at h
      have := ih _ h
      rw [this]
      simp [Ne.symm hc]

/-- C5. When the pending bytes are `pre ++ [d] ++ rest` with `d` not in `pre`,
`ReadDelim` returns `(pre, false)` and leaves exactly `rest`, with the open/closed
state of the channel unchanged, to the next consumer. -/
theorem ReadDelim_delimiter_seen (d : UInt8) (pre rest : List UInt8) (closed : Bool)
    (hpre : d ∉ pre) :
    ReadDelim ⟨pre ++ [d] ++ rest, closed⟩ d = some (pre, false, ⟨rest, closed⟩) := by
  simp [ReadDelim, ReadDelim.loop_delim d closed pre rest [] hpre]

theorem ReadDelim_delimiter_seen_witness :
    ReadDelim ⟨[97, 98] ++ [10] ++ [99, 10, 100], false⟩ 10 =
      some ([97, 98], false, ⟨[99, 10, 100], false⟩) :=
  ReadDelim_delimiter_seen 10 [97, 98] [99, 10, 100] false (by decide)

/-- C6. On a channel that carries `s` without the delimiter and is then closed,
`ReadDelim` returns `(s, true)`; whenever `ReadDelim` returns, its EOF flag is true
exactly when the channel was closed with no delimiter among the pending bytes; and on
"abc\n" then closed the first call returns ("abc", false), the second ("", true). -/
theorem ReadDelim_channel_closes_first :
    (∀ (d : UInt8) (s : List UInt8), d ∉ s →
      ReadDelim ⟨s, true⟩ d = some (s, true, ⟨[], true⟩)) ∧
    (∀ (d : UInt8) (recv ch : ByteChan) (line : List UInt8) (eof : Bool),
      ReadDelim recv d = some (line, eof, ch) →
        (eof = true ↔ d ∉ recv.pending ∧ recv.closed = true)) ∧
    (∃ ch : ByteChan, ReadDelim ⟨[97, 98, 99, 10], true⟩ 10 = some ([97, 98, 99], false, ch) ∧
      ReadDelim ch 10 = some ([], true, ch)) := by
  refine ⟨?_, ?_, ⟨⟨[], true⟩, by decide, by decide⟩⟩
  · intro d s hs
    simp [ReadDelim, ReadDelim.loop_closed d s [] hs]
  · intro d recv ch line eof h
    exact ReadDelim.loop_eof_iff d recv.closed recv.pending [] line eof ch h

theorem ReadDelim_channel_closes_first_witness :
    ReadDelim ⟨[97, 98], true⟩ 10 = some ([97, 98], true, ⟨[], true⟩) ∧
    ReadDelim ⟨[], true⟩ 0 = some ([], true, ⟨[], true⟩) ∧
    ((false = true) ↔ (10 : UInt8) ∉ [97, 10, 98] ∧ true = true) :=
  ⟨ReadDelim_channel_closes_first.1 10 [97, 98] (by decide),
   ReadDelim_channel_closes_first.1 0 [] (by decide),
   ReadDelim_channel_closes_first.2.1 10 ⟨[97, 10, 98], true⟩ ⟨[98], true⟩ [97] false
     (by decide)⟩

/-! ## The continuous framer -/

theorem ReadDelims.loop_no_delim (d : UInt8) (closed : Bool) (tail line : List UInt8)
    (lines : List (List UInt8)) (ht : d ∉ tail) :
    ReadDelims.loop d closed tail line lines = ⟨lines, closed⟩ := by
  induction tail generalizing line with
  | nil => simp [ReadDelims.loop]
  | cons c tail ih =>
    have hc : c ≠ d := fun h => ht (by simp [h])
    have hd : d ∉ tail := fun h => ht (List.mem_cons_of_mem _ h)
    simp [ReadDelims.loop, hc, ih _ hd]

theorem ReadDelims.loop_frame (d : UInt8) (closed : Bool) (f rest line : List UInt8)
    (lines : List (List UInt8)) (hf : d ∉ f) :
    ReadDelims.loop d closed (f ++ d :: rest) line lines =
      ReadDelims.loop d closed rest [] (lines ++ [line ++ f]) := by
  induction f generalizing line with
  | nil => simp [ReadDelims.loop]
  | cons c f ih =>
    have hc : c ≠ d := fun h => hf (by simp [h])
    have hd : d ∉ f := fun h => hf (List.mem_cons_of_mem _ h)
    simp [ReadDelims.loop, hc, ih _ hd]

theorem ReadDelims.loop_frames (d : UInt8) (closed : Bool) (fs : List (List UInt8))
    (tail : List UInt8) (lines : List (List UInt8)) (hfs : ∀ f ∈ fs, d ∉ f) (ht : d ∉ tail) :
    ReadDelims.loop d closed ((fs.map (· ++ [d])).flatten ++ tail) [] lines =
      ⟨lines ++ fs, closed⟩ := by
  induction fs generalizing lines with
  | nil => simpa using ReadDelims.loop_no_delim d closed tail [] lines ht
  | cons f fs ih =>
    have hf : d ∉ f := hfs f (List.mem_cons_self _ _)
    have hrest : ∀ g ∈ fs, d ∉ g := fun g hg => hfs g (List.mem_cons_of_mem _ hg)
    have h := ReadDelims.loop_frame d closed f ((fs.map (· ++ [d])).flatten ++ tail) []
      lines hf
    simp only [List.map_cons, List.flatten_cons, List.append_assoc, List.singleton_append,
      List.nil_append, List.cons_append] at h ⊢
    rw [h, ih _ hrest]
    simp

theorem modifyHead_nil_append (L : List (List UInt8)) :
    List.modifyHead (fun x => x) L = L := by
  cases L <;> simp [List.modifyHead]

theorem modifyHead_modifyHead_append (line : List UInt8) (c : UInt8) (L : List (List UInt8)) :
    List.modifyHead (line ++ ·) (List.modifyHead (List.cons c) L) =
      List.modifyHead ((line ++ [c]) ++ ·) L := by
  cases L <;> simp [List.modifyHead]

theorem ReadDelims.loop_splitOn (d : UInt8) (closed : Bool) (s line : List UInt8)
    (lines : List (List UInt8)) :
    ReadDelims.loop d closed s line lines =
      ⟨lines ++ (List.modifyHead (line ++ ·) (s.splitOn d)).dropLast, closed⟩ := by
  induction s generalizing line lines with
  | nil => simp [ReadDelims.loop, List.splitOn, List.modifyHead]
  | cons c s ih =>
    by_cases hc : c = d
    · subst hc
      have hne : List.splitOnP (· == c) s ≠ [] := List.splitOnP_ne_nil _ _
      simp only [ReadDelims.loop, if_true, ih, List.splitOn, List.splitOnP_cons,
        beq_self_eq_true, List.modifyHead, List.append_nil, List.nil_append,
        modifyHead_nil_append]
      cases hL : List.splitOnP (· == c) s with
      | nil => exact absurd hL hne
      | cons x xs => simp [List.dropLast]
    · have hb : (c == d) = false := by simpa using hc
      simp only [ReadDelims.loop, hc, if_false, ih, List.splitOn, List.splitOnP_cons, hb,
        modifyHead_modifyHead_append]
      simp [Function.comp_def]

theorem length_splitOn (d : UInt8) (s : List UInt8) :
    (s.splitOn d).length = s.count d + 1 := by
  induction s with
  | nil => simp [List.splitOn]
  | cons c s ih =>
    simp only [List.splitOn] at ih ⊢
    rw [List.splitOnP_cons]
    by_cases hc : c = d
    · subst hc
      simp [ih]
    · have hb : (c == d) = false := by simpa using hc
      simp [hb, ih, List.count_cons, hc]

/-- C7. On a channel that carries `s` and is then closed, `ReadDelims` emits the pieces
of `s` between consecutive delimiters except the piece after the last delimiter, one
frame per occurrence of `d`, and closes the frame channel: when `s` is the frames
`fs` (none containing `d`), each followed by `d`, and then an undelimited `tail`, the
frames emitted are exactly `fs`.  `Readlines` on "a\nb\nc" emits "a", "b" and closes. -/
theorem ReadDelims_framing :
    (∀ (d : UInt8) (s : List UInt8),
      ReadDelims ⟨s, true⟩ d = ⟨(s.splitOn d).dropLast, true⟩ ∧
      (ReadDelims ⟨s, true⟩ d).frames.length = s.count d) ∧
    (∀ (d : UInt8) (fs : List (List UInt8)) (tail : List UInt8),
      (∀ f ∈ fs, d ∉ f) → d ∉ tail →
        ReadDelims ⟨(fs.map (· ++ [d])).flatten ++ tail, true⟩ d = ⟨fs, true⟩) ∧
    Readlines ⟨[97, 10, 98, 10, 99], true⟩ = ⟨[[97], [98]], true⟩ := by
  refine ⟨?_, ?_, by decide⟩
  · intro d s
    have h : ReadDelims ⟨s, true⟩ d = ⟨(s.splitOn d).dropLast, true⟩ := by
      simp [ReadDelims, ReadDelims.loop_splitOn, modifyHead_nil_append]
    refine ⟨h, ?_⟩
    rw [h]
    simp [length_splitOn]
  · intro d fs tail hfs ht
    simpa [ReadDelims] using ReadDelims.loop_frames d true fs tail [] hfs ht

theorem ReadDelims_framing_witness :
    ReadDelims ⟨([[1, 2], [], [3]].map (· ++ [0])).flatten ++ [4, 5], true⟩ 0 =
      ⟨[[1, 2], [], [3]], true⟩ :=
  ReadDelims_framing.2.1 0 [[1, 2], [], [3]] [4, 5] (by decide) (by decide)

/-! ## The reader pump -/

theorem length_storeRead (memblock data : List UInt8) :
    (storeRead memblock data).length = memblock.length := by
  simp only [storeRead, List.length_take, List.length_append, List.length_drop]
  omega

theorem take_storeRead (memblock data : List UInt8) (h : data.length ≤ memblock.length) :
    (storeRead memblock data).take data.length = data := by
  simp only [storeRead, List.take_take, Nat.min_eq_left h]
  rw [List.take_append_of_le_length (Nat.le_refl _)]
  simp

theorem TCPReader.sendLoop_eq (memblock : List UInt8) (todo i : Nat) (sent : List UInt8)
    (h : i + todo ≤ memblock.length) :
    TCPReader.sendLoop memblock todo i sent = (sent ++ (memblock.drop i).take todo, true) := by
  induction todo generalizing i sent with
  | zero => simp [TCPReader.sendLoop]
  | succ todo ih =>
    have hi : i < memblock.length := by omega
    have hd : memblock.drop i = memblock[i] :: memblock.drop (i + 1) :=
      List.drop_eq_getElem_cons hi
    simp only [TCPReader.sendLoop, List.getElem?_eq_getElem hi]
    rw [ih (i + 1) _ (by omega), hd]
    simp only [List.take_succ_cons, List.append_assoc, List.singleton_append]

theorem TCPReader.loop_eof (pre : List ReadResult) (last : ReadResult)
    (extra : List ReadResult) (memblock sent : List UInt8) (reads : Nat)
    (hmem : memblock.length = 256)
    (hpre : ∀ r ∈ pre, r.err = none ∧ r.n ≤ 256) (hn : last.n ≤ 256)
    (heof : IsEOF last.err = some true) :
    TCPReader.loop (pre ++ last :: extra) memblock sent reads =
      ⟨sent ++ (pre.map ReadResult.data).flatten ++ last.data, true,
        reads + pre.length + 1, extra, .finished⟩ := by
  induction pre generalizing memblock sent reads with
  | nil =>
    have hlen : (storeRead memblock last.data).length = 256 := by
      rw [length_storeRead, hmem]
    have hsend := TCPReader.sendLoop_eq (storeRead memblock last.data) last.n 0 sent
      (by rw [hlen]; omega)
    have htake := take_storeRead memblock last.data (by rw [hmem]; exact hn)
    simp only [ReadResult.n] at hsend
    simp only [List.drop_zero, htake] at hsend
    simp [TCPReader.loop, heof, hsend, ReadResult.n]
  | cons r pre ih =>
    obtain ⟨herr, hrn⟩ := hpre r (List.mem_cons_self _ _)
    have hrest : ∀ q ∈ pre, q.err = none ∧ q.n ≤ 256 :=
      fun q hq => hpre q (List.mem_cons_of_mem _ hq)
    have hlen : (storeRead memblock r.data).length = 256 := by
      rw [length_storeRead, hmem]
    have hsend := TCPReader.sendLoop_eq (storeRead memblock r.data) r.n 0 sent
      (by rw [hlen]; omega)
    have htake := take_storeRead memblock r.data (by rw [hmem]; exact hrn)
    simp only [ReadResult.n] at hsend
    simp only [List.drop_zero, htake] at hsend
    rw [List.cons_append]
    simp only [TCPReader.loop, herr, IsEOF, ReadResult.n, hsend]
    simp only [Bool.not_false, Option.isSome_none, Bool.and_false, Bool.false_eq_true,
      if_false]
    rw [ih _ _ _ hlen hrest]
    simp [Nat.add_assoc, Nat.add_comm 1]

/-- C1. When the reads `pre` return no error, the next read `last` returns an error
that `IsEOF` classifies as EOF, and every read returns at most 256 bytes, the channel
carries exactly the bytes of the reads of `pre` followed by the bytes of `last`, in
order, and is then closed; the goroutine returns after `pre.length + 1` reads and
leaves every further read `extra` of the connection unissued. -/
theorem TCPReader_stream_fidelity (pre : List ReadResult) (last : ReadResult)
    (extra : List ReadResult)
    (hpre : ∀ r ∈ pre, r.err = none ∧ r.n ≤ 256) (hn : last.n ≤ 256)
    (heof : IsEOF last.err = some true) :
    TCPReader (pre ++ last :: extra) =
      ⟨(pre.map ReadResult.data).flatten ++ last.data, true, pre.length + 1, extra,
        .finished⟩ := by
  have h := TCPReader.loop_eof pre last extra (List.replicate 256 0) [] 0
    (List.length_replicate _ _) hpre hn heof
  show TCPReader.loop _ _ _ _ = _
  rw [h]
  simp

theorem TCPReader_stream_fidelity_witness :
    TCPReader ([⟨[1, 2], none⟩, ⟨[], none⟩, ⟨[3], none⟩] ++
        (⟨[4, 5], some GoError.EOF⟩ : ReadResult) :: [⟨[6], none⟩]) =
      ⟨[1, 2, 3, 4, 5], true, 4, [⟨[6], none⟩], .finished⟩ :=
  TCPReader_stream_fidelity [⟨[1, 2], none⟩, ⟨[], none⟩, ⟨[3], none⟩]
    ⟨[4, 5], some GoError.EOF⟩ [⟨[6], none⟩] (by decide) (by decide) (by decide)

/-! ## The writer pump -/

theorem TCPWriter.writeBlock_whole (block : List UInt8) (script : List WriteResult)
    (con : Conn) :
    TCPWriter.writeBlock block (⟨block.length, none⟩ :: script) con =
      (.finished, ⟨con.calls ++ [block], con.wire ++ block, con.closes⟩, script) := by
  simp only [TCPWriter.writeBlock, Conn.Write]
  rw [TCPWriter.writeLoop.eq_def]
  simp

theorem TCPWriter.pump_whole (closeErr : Option GoError) (blocks : List (List UInt8))
    (extra : List WriteResult) (con : Conn) :
    TCPWriter.pump true closeErr blocks (acceptWhole blocks ++ extra) con =
      ⟨⟨con.calls ++ blocks, con.wire ++ blocks.flatten, con.closes + 1⟩, extra, [],
        closeErr, .finished⟩ := by
  induction blocks generalizing con with
  | nil => simp [TCPWriter.pump, acceptWhole, Conn.Close]
  | cons block blocks ih =>
    simp only [acceptWhole, List.map_cons, List.cons_append] at ih ⊢
    simp only [TCPWriter.pump, TCPWriter.writeBlock_whole, ih]
    simp

/-- C2. On a connection whose every write accepts the whole slice with no error, after
the blocks `blocks` were sent and the channel closed, the goroutine has made one write
call per block, with the blocks as arguments in submission order, the connection has
accepted exactly their concatenation, and it was closed exactly once, whatever
`con.Close` returned. -/
theorem TCPWriter_fifo (blocks : List (List UInt8)) (extra : List WriteResult)
    (closeErr : Option GoError) :
    TCPWriter (acceptWhole blocks ++ extra) closeErr blocks true =
      ⟨⟨blocks, blocks.flatten, 1⟩, extra, [], closeErr, .finished⟩ := by
  simpa [TCPWriter, Conn.fresh] using TCPWriter.pump_whole closeErr blocks extra Conn.fresh

theorem TCPWriter.writeLoop_one_byte (k : Nat) (con : Conn) :
    TCPWriter.writeLoop [1, 2, 3] (acceptOneByte k) 1 none con =
      (.blocked, ⟨con.calls ++ List.replicate k [2, 3], con.wire ++ List.replicate k 2,
        con.closes⟩, []) := by
  induction k generalizing con with
  | zero => simp [TCPWriter.writeLoop, acceptOneByte]
  | succ k ih =>
    simp only [acceptOneByte, List.replicate_succ] at ih ⊢
    rw [TCPWriter.writeLoop.eq_def]
    simp [ih, Conn.Write]

/-- Were a write to report one byte per call with no error, the write loop for the block
`[1, 2, 3]` would hand `[1, 2, 3]` to the first write and `[2, 3]` to every later one:
however many writes were answered, the loop would not have ended and the byte `3`
would never have been accepted. -/
theorem TCPWriter.one_byte_per_write (k : Nat) :
    TCPWriter (acceptOneByte (k + 1)) none [[1, 2, 3]] true =
      ⟨⟨[1, 2, 3] :: List.replicate k [2, 3], 1 :: List.replicate k 2, 0⟩, [], [], none,
        .blocked⟩ := by
  simp [TCPWriter, TCPWriter.pump, TCPWriter.writeBlock, acceptOneByte,
    List.replicate_succ, Conn.fresh, Conn.Write]
  have h := TCPWriter.writeLoop_one_byte k ⟨[[1, 2, 3]], [1], 0⟩
  simp only [acceptOneByte] at h
  simp [h]

/-- C3 as stated fails. The block `[1, 2, 3]` is sent on a connection whose first write
accepts the non-empty proper prefix `[1]` with no error and whose second write accepts
the whole remainder `[2, 3]`.  The loop does not end there: it hands `[3]` to a third
write although nothing was left unwritten, the bytes accepted are `1, 2, 3, 3`, not the
block, and after the third answer the loop is still running. -/
theorem TCPWriter_short_write_counterexample :
    TCPWriter [⟨1, none⟩, ⟨2, none⟩, ⟨1, none⟩] none [[1, 2, 3]] true =
      ⟨⟨[[1, 2, 3], [2, 3], [3]], [1, 2, 3, 3], 0⟩, [], [], none, .blocked⟩ ∧
    (TCPWriter [⟨1, none⟩, ⟨2, none⟩, ⟨1, none⟩] none [[1, 2, 3]] true).con.wire ≠
      [1, 2, 3] ∧
    (TCPWriter [⟨1, none⟩, ⟨2, none⟩, ⟨1, none⟩] none [[1, 2, 3]] true).status ≠
      .finished := by
  decide

/-- C3, amended. A write of a `*net.TCPConn` that returns no error has accepted the whole
slice it was given.  For every block, when the first write call is answered that way,
the write loop makes no re-attempt: it ends after that one call, whose argument was
the whole block, and the bytes accepted by the connection for the block are exactly
the block, each byte once and in order.  No later write result is consumed and
`con.Close` is not called by the loop. -/
theorem TCPWriter_whole_write (block : List UInt8) (r : WriteResult)
    (script : List WriteResult) (con : Conn) (herr : r.err = none)
    (hn : r.n = block.length) :
    TCPWriter.writeBlock block (r :: script) con =
      (.finished, ⟨con.calls ++ [block], con.wire ++ block, con.closes⟩, script) := by
  obtain ⟨n, err⟩ := r
  simp only at herr hn
  subst herr hn
  exact TCPWriter.writeBlock_whole block script con

theorem TCPWriter_whole_write_witness :
    TCPWriter.writeBlock [1, 2, 3] (⟨3, none⟩ :: [⟨1, none⟩]) ⟨[[9]], [9], 0⟩ =
      (.finished, ⟨[[9]] ++ [[1, 2, 3]], [9] ++ [1, 2, 3], 0⟩, [⟨1, none⟩]) :=
  TCPWriter_whole_write [1, 2, 3] ⟨3, none⟩ [⟨1, none⟩] ⟨[[9]], [9], 0⟩ rfl rfl

/-! ## Writer to reader -/

/-- C4. Blocks are sent through a writer pump on a connection whose writes accept the
whole slice with no error, and the channel is closed; the peer end returns the bytes
the connection accepted, in order, through error-free reads `pre` of any sizes up to
256 and a last read `last` with an error classified as EOF.  Then the reader pump on
the peer end publishes exactly the concatenation of the blocks and closes its channel,
and any other division of the same bytes into blocks, read back through any other
division into reads, publishes the same bytes. -/
theorem writer_reader_round_trip (blocks : List (List UInt8)) (closeErr : Option GoError)
    (pre : List ReadResult) (last : ReadResult)
    (hpre : ∀ r ∈ pre, r.err = none ∧ r.n ≤ 256) (hn : last.n ≤ 256)
    (heof : IsEOF last.err = some true)
    (hpeer : (pre.map ReadResult.data).flatten ++ last.data =
      (TCPWriter (acceptWhole blocks) closeErr blocks true).con.wire) :
    (TCPReader (pre ++ [last])).sent = blocks.flatten ∧
    (TCPReader (pre ++ [last])).closed = true ∧
    ∀ (blocks2 : List (List UInt8)) (closeErr2 : Option GoError) (pre2 : List ReadResult)
      (last2 : ReadResult),
      (∀ r ∈ pre2, r.err = none ∧ r.n ≤ 256) → last2.n ≤ 256 →
      IsEOF last2.err = some true →
      (pre2.map ReadResult.data).flatten ++ last2.data =
        (TCPWriter (acceptWhole blocks2) closeErr2 blocks2 true).con.wire →
      blocks2.flatten = blocks.flatten →
      (TCPReader (pre2 ++ [last2])).sent = (TCPReader (pre ++ [last])).sent := by
  have hw : ∀ (bs : List (List UInt8)) (ce : Option GoError),
      (TCPWriter (acceptWhole bs) ce bs true).con.wire = bs.flatten := by
    intro bs ce
    have h := TCPWriter.pump_whole ce bs [] Conn.fresh
    simp only [List.append_nil] at h
    show (TCPWriter.pump true ce bs (acceptWhole bs) Conn.fresh).con.wire = bs.flatten
    rw [h]
    simp [Conn.fresh]
  have hr : ∀ (p : List ReadResult) (l : ReadResult),
      (∀ r ∈ p, r.err = none ∧ r.n ≤ 256) → l.n ≤ 256 → IsEOF l.err = some true →
      TCPReader (p ++ [l]) =
        ⟨(p.map ReadResult.data).flatten ++ l.data, true, p.length + 1, [], .finished⟩ := by
    intro p l hp hl he
    have h := TCPReader.loop_eof p l [] (List.replicate 256 0) [] 0
      (List.length_replicate _ _) hp hl he
    show TCPReader.loop _ _ _ _ = _
    rw [h]
    simp
  rw [hw] at hpeer
  refine ⟨by rw [hr pre last hpre hn heof]; exact hpeer,
    by rw [hr pre last hpre hn heof], ?_⟩
  intro blocks2 closeErr2 pre2 last2 hpre2 hn2 heof2 hpeer2 hsame
  rw [hw] at hpeer2
  rw [hr pre last hpre hn heof, hr pre2 last2 hpre2 hn2 heof2]
  show (pre2.map ReadResult.data).flatten ++ last2.data =
    (pre.map ReadResult.data).flatten ++ last.data
  rw [hpeer, hpeer2, hsame]

theorem writer_reader_round_trip_witness :
    (TCPReader ([⟨[1], none⟩, ⟨[], none⟩, ⟨[2, 3], none⟩] ++
      [(⟨[4], some GoError.EOF⟩ : ReadResult)])).sent = [[1, 2], [], [3, 4]].flatten ∧
    (TCPReader ([⟨[1, 2, 3, 4], none⟩] ++
      [(⟨[], some (GoError.other "use of closed network connection")⟩ : ReadResult)])).sent =
    (TCPReader ([⟨[1], none⟩, ⟨[], none⟩, ⟨[2, 3], none⟩] ++
      [(⟨[4], some GoError.EOF⟩ : ReadResult)])).sent :=
  have h := writer_reader_round_trip [[1, 2], [], [3, 4]] none
    [⟨[1], none⟩, ⟨[], none⟩, ⟨[2, 3], none⟩] ⟨[4], some GoError.EOF⟩
    (by decide) (by decide) (by decide) (by decide)
  ⟨h.1, h.2.2 [[1], [2, 3, 4]] (some (GoError.other "close failed")) [⟨[1, 2, 3, 4], none⟩]
    ⟨[], some (GoError.other "use of closed network connection")⟩
    (by decide) (by decide) (by decide) (by decide) (by decide)⟩

/-! ## Fatal faults -/

theorem TCPReader.loop_error_free (pre rest : List ReadResult) (memblock sent : List UInt8)
    (reads : Nat) (hmem : memblock.length = 256)
    (hpre : ∀ r ∈ pre, r.err = none ∧ r.n ≤ 256) :
    ∃ memblock2 : List UInt8, memblock2.length = 256 ∧
      TCPReader.loop (pre ++ rest) memblock sent reads =
        TCPReader.loop rest memblock2 (sent ++ (pre.map ReadResult.data).flatten)
          (reads + pre.length) := by
  induction pre generalizing memblock sent reads with
  | nil => exact ⟨memblock, hmem, by simp⟩
  | cons r pre ih =>
    obtain ⟨herr, hrn⟩ := hpre r (List.mem_cons_self _ _)
    have hrest : ∀ q ∈ pre, q.err = none ∧ q.n ≤ 256 :=
      fun q hq => hpre q (List.mem_cons_of_mem _ hq)
    have hlen : (storeRead memblock r.data).length = 256 := by
      rw [length_storeRead, hmem]
    have hsend := TCPReader.sendLoop_eq (storeRead memblock r.data) r.n 0 sent
      (by rw [hlen]; omega)
    have htake := take_storeRead memblock r.data (by rw [hmem]; exact hrn)
    simp only [ReadResult.n] at hsend
    simp only [List.drop_zero, htake] at hsend
    obtain ⟨memblock2, hlen2, h2⟩ := ih (storeRead memblock r.data) (sent ++ r.data)
      (reads + 1) hlen hrest
    refine ⟨memblock2, hlen2, ?_⟩
    rw [List.cons_append]
    simp only [TCPReader.loop, herr, IsEOF, ReadResult.n, hsend]
    simp only [Bool.not_false, Option.isSome_none, Bool.and_false, Bool.false_eq_true,
      if_false]
    rw [h2]
    simp [Nat.add_assoc, Nat.add_comm 1]

theorem TCPReader.loop_fatal (bad : ReadResult) (extra : List ReadResult)
    (memblock sent : List UInt8) (reads : Nat) (hsome : bad.err.isSome = true)
    (hnot : IsEOF bad.err ≠ some true) :
    TCPReader.loop (bad :: extra) memblock sent reads =
      ⟨sent, false, reads + 1, extra, .panicked⟩ := by
  simp only [TCPReader.loop]
  cases h : IsEOF bad.err with
  | none => rfl
  | some b =>
    cases b with
    | true => exact absurd h hnot
    | false => simp [hsome]

/-- C11. When the reads `pre` return no error (each at most 256 bytes) and the next read
`bad` returns a present error that `IsEOF` does not classify as EOF, the goroutine of
`TCPReader` panics at that read: the channel carries exactly the bytes of the reads of
`pre`, none of the bytes of `bad`, it is not closed, and no further read is issued. -/
theorem TCPReader_fatal_fault (pre : List ReadResult) (bad : ReadResult)
    (extra : List ReadResult)
    (hpre : ∀ r ∈ pre, r.err = none ∧ r.n ≤ 256) (hsome : bad.err.isSome = true)
    (hnot : IsEOF bad.err ≠ some true) :
    TCPReader (pre ++ bad :: extra) =
      ⟨(pre.map ReadResult.data).flatten, false, pre.length + 1, extra, .panicked⟩ := by
  obtain ⟨memblock2, _, h⟩ := TCPReader.loop_error_free pre (bad :: extra)
    (List.replicate 256 0) [] 0 (List.length_replicate _ _) hpre
  show TCPReader.loop _ _ _ _ = _
  rw [h, TCPReader.loop_fatal bad extra _ _ _ hsome hnot]
  simp

theorem TCPReader_fatal_fault_witness :
    TCPReader ([⟨[1, 2], none⟩, ⟨[], none⟩, ⟨[3], none⟩] ++
        (⟨[4, 5], some (GoError.other "connection reset by peer")⟩ : ReadResult) ::
          [⟨[6], some GoError.EOF⟩]) =
      ⟨[1, 2, 3], false, 4, [⟨[6], some GoError.EOF⟩], .panicked⟩ :=
  TCPReader_fatal_fault [⟨[1, 2], none⟩, ⟨[], none⟩, ⟨[3], none⟩]
    ⟨[4, 5], some (GoError.other "connection reset by peer")⟩ [⟨[6], some GoError.EOF⟩]
    (by decide) (by decide) (by decide)

theorem mem_dropLast_cons_of_ne_nil (r : WriteResult) (used : List WriteResult)
    (hne : used ≠ []) : (r :: used).dropLast = r :: used.dropLast := by
  cases used with
  | nil => exact absurd rfl hne
  | cons a l => rfl

theorem TCPWriter.writeLoop_trace (block : List UInt8) (script : List WriteResult) (n : Nat)
    (err : Option GoError) (con : Conn) :
    ∃ used : List WriteResult,
      script = used ++ (TCPWriter.writeLoop block script n err con).2.2 ∧
      (TCPWriter.writeLoop block script n err con).2.1.closes = con.closes ∧
      (TCPWriter.writeLoop block script n err con).2.1.calls.length =
        con.calls.length + used.length ∧
      (err.isSome = true → used = []) ∧
      (∀ r ∈ used.dropLast, r.err = none) ∧
      ((err.isSome = true ∨ ∃ r ∈ used, r.err.isSome = true) →
        (TCPWriter.writeLoop block script n err con).1 = .panicked) := by
  induction script generalizing n err con with
  | nil =>
    refine ⟨[], ?_⟩
    rw [TCPWriter.writeLoop.eq_def]
    cases err <;> by_cases h : n < block.length <;> simp [h]
  | cons r script ih =>
    cases err with
    | some e =>
      refine ⟨[], ?_⟩
      rw [TCPWriter.writeLoop.eq_def]
      simp
    | none =>
      by_cases h : n < block.length
      · obtain ⟨used, h1, h2, h3, h4, h5, h6⟩ :=
          ih r.n r.err (con.Write (block.drop n) r)
        have hstep : TCPWriter.writeLoop block (r :: script) n none con =
            TCPWriter.writeLoop block script r.n r.err (con.Write (block.drop n) r) := by
          rw [TCPWriter.writeLoop.eq_def]
          simp [h]
        rw [hstep]
        refine ⟨r :: used, ?_, ?_, ?_, ?_, ?_, ?_⟩
        · rw [List.cons_append, ← h1]
        · rw [h2]; rfl
        · rw [h3]; simp [Conn.Write]; omega
        · intro hf; simp at hf
        · intro q hq
          by_cases hu : used = []
          · subst hu; simp at hq
          · rw [mem_dropLast_cons_of_ne_nil r used hu] at hq
            rcases List.mem_cons.1 hq with hq | hq
            · subst hq
              cases hr : q.err with
              | none => rfl
              | some e => exact absurd (h4 (by simp [hr])) hu
            · exact h5 q hq
        · intro hor
          apply h6
          rcases hor with hf | ⟨q, hq, hqe⟩
          · simp at hf
          · rcases List.mem_cons.1 hq with hq | hq
            · subst hq; exact Or.inl hqe
            · exact Or.inr ⟨q, hq, hqe⟩
      · refine ⟨[], ?_⟩
        rw [TCPWriter.writeLoop.eq_def]
        simp [h]


theorem TCPWriter.writeBlock_trace (block : List UInt8) (script : List WriteResult)
    (con : Conn) :
    ∃ used : List WriteResult,
      script = used ++ (TCPWriter.writeBlock block script con).2.2 ∧
      (TCPWriter.writeBlock block script con).2.1.closes = con.closes ∧
      (TCPWriter.writeBlock block script con).2.1.calls.length =
        con.calls.length + used.length ∧
      (∀ r ∈ used.dropLast, r.err = none) ∧
      ((∃ r ∈ used, r.err.isSome = true) →
        (TCPWriter.writeBlock block script con).1 = .panicked) := by
  cases script with
  | nil => exact ⟨[], by simp [TCPWriter.writeBlock]⟩
  | cons r script =>
    obtain ⟨used, h1, h2, h3, h4, h5, h6⟩ :=
      TCPWriter.writeLoop_trace block script r.n r.err (con.Write block r)
    simp only [TCPWriter.writeBlock]
    refine ⟨r :: used, ?_, ?_, ?_, ?_, ?_⟩
    · rw [List.cons_append, ← h1]
    · rw [h2]; rfl
    · rw [h3]; simp [Conn.Write]; omega
    · intro q hq
      by_cases hu : used = []
      · subst hu; simp at hq
      · rw [mem_dropLast_cons_of_ne_nil r used hu] at hq
        rcases List.mem_cons.1 hq with hq | hq
        · subst hq
          cases hr : q.err with
          | none => rfl
          | some e => exact absurd (h4 (by simp [hr])) hu
        · exact h5 q hq
    · rintro ⟨q, hq, hqe⟩
      apply h6
      rcases List.mem_cons.1 hq with hq | hq
      · subst hq; exact Or.inl hqe
      · exact Or.inr ⟨q, hq, hqe⟩

theorem TCPWriter.pump_trace (chanClosed : Bool) (closeErr : Option GoError)
    (blocks : List (List UInt8)) (script : List WriteResult) (con : Conn) :
    ∃ used : List WriteResult,
      script = used ++ (TCPWriter.pump chanClosed closeErr blocks script con).script ∧
      (TCPWriter.pump chanClosed closeErr blocks script con).con.calls.length =
        con.calls.length + used.length ∧
      (∀ r ∈ used.dropLast, r.err = none) ∧
      ((∃ r ∈ used, r.err.isSome = true) →
        (TCPWriter.pump chanClosed closeErr blocks script con).status = .panicked ∧
        (TCPWriter.pump chanClosed closeErr blocks script con).con.closes = con.closes ∧
        (TCPWriter.pump chanClosed closeErr blocks script con).logged = none) := by
  induction blocks generalizing script con with
  | nil =>
    refine ⟨[], ?_⟩
    cases chanClosed <;> simp [TCPWriter.pump, Conn.Close]
  | cons block blocks ih =>
    obtain ⟨used, h1, h2, h3, h4, h5⟩ := TCPWriter.writeBlock_trace block script con
    rcases hW : TCPWriter.writeBlock block script con with ⟨status, con2, script2⟩
    rw [hW] at h1 h2 h3 h5
    simp only at h1 h2 h3 h5
    cases status with
    | finished =>
      have hclean : ∀ r ∈ used, r.err = none := by
        intro r hr
        cases hre : r.err with
        | none => rfl
        | some e => exact absurd (h5 ⟨r, hr, by simp [hre]⟩) (by decide)
      obtain ⟨used2, k1, k2, k3, k4⟩ := ih script2 con2
      simp only [TCPWriter.pump, hW]
      refine ⟨used ++ used2, ?_, ?_, ?_, ?_⟩
      · rw [List.append_assoc, ← k1, ← h1]
      · rw [k2, h3, List.length_append]; omega
      · intro q hq
        by_cases hu : used2 = []
        · subst hu
          rw [List.append_nil] at hq
          exact hclean q (List.mem_of_mem_dropLast hq)
        · rw [List.dropLast_append_of_ne_nil _ hu] at hq
          rcases List.mem_append.1 hq with hq | hq
          · exact hclean q hq
          · exact k3 q hq
      · rintro ⟨q, hq, hqe⟩
        rcases List.mem_append.1 hq with hq | hq
        · rw [hclean q hq] at hqe; simp at hqe
        · obtain ⟨m1, m2, m3⟩ := k4 ⟨q, hq, hqe⟩
          exact ⟨m1, by rw [m2, h2], m3⟩
    | blocked =>
      simp only [TCPWriter.pump, hW]
      exact ⟨used, h1, h3, h4, fun hex => absurd (h5 hex) (by decide)⟩
    | panicked =>
      simp only [TCPWriter.pump, hW]
      exact ⟨used, h1, h3, h4, fun _ => ⟨trivial, h2, trivial⟩⟩

theorem TCPWriter.writeLoop_error (block : List UInt8) (script : List WriteResult) (n : Nat)
    (e : GoError) (con : Conn) :
    TCPWriter.writeLoop block script n (some e) con = (.panicked, con, script) := by
  rw [TCPWriter.writeLoop.eq_def]
  simp

/-- C12. Take any run of the goroutine of `TCPWriter` and any write call of it that was
answered (`i` is its index among the write calls) with a present error, whatever the
error and whatever byte count came with it.  Then the goroutine has panicked, that
call is its last write call, so nothing of a later block is written, and `con.Close`
was not called. -/
theorem TCPWriter_fatal_fault (script : List WriteResult) (closeErr : Option GoError)
    (blocks : List (List UInt8)) (chanClosed : Bool) (i : Nat) (r : WriteResult)
    (hi : i < script.length - (TCPWriter script closeErr blocks chanClosed).script.length)
    (hr : script[i]? = some r) (herr : r.err.isSome = true) :
    (TCPWriter script closeErr blocks chanClosed).status = .panicked ∧
    script.length - (TCPWriter script closeErr blocks chanClosed).script.length = i + 1 ∧
    (TCPWriter script closeErr blocks chanClosed).con.calls.length = i + 1 ∧
    (TCPWriter script closeErr blocks chanClosed).con.closes = 0 ∧
    (TCPWriter script closeErr blocks chanClosed).logged = none := by
  obtain ⟨used, h1, h2, h3, h4⟩ :=
    TCPWriter.pump_trace chanClosed closeErr blocks script Conn.fresh
  change script = used ++ (TCPWriter script closeErr blocks chanClosed).script at h1
  change (TCPWriter script closeErr blocks chanClosed).con.calls.length = _ at h2
  change _ → (TCPWriter script closeErr blocks chanClosed).status = .panicked ∧
    (TCPWriter script closeErr blocks chanClosed).con.closes = _ ∧
    (TCPWriter script closeErr blocks chanClosed).logged = none at h4
  generalize TCPWriter script closeErr blocks chanClosed = st at *
  have hlen : script.length = used.length + st.script.length := by
    have := congrArg List.length h1
    simpa [List.length_append] using this
  have hiu : i < used.length := by omega
  have hur : used[i]? = some r := by
    rw [h1, List.getElem?_append_left hiu] at hr
    exact hr
  have hmem : r ∈ used := List.getElem?_mem hur
  obtain ⟨m1, m2, m3⟩ := h4 ⟨r, hmem, herr⟩
  have hlast : used.length = i + 1 := by
    by_contra hne
    have hlt : i < used.length - 1 := by omega
    have hd : used.dropLast[i]? = some r := by
      rw [List.getElem?_dropLast, if_pos hlt, hur]
    have := h3 r (List.getElem?_mem hd)
    rw [this] at herr
    simp at herr
  refine ⟨m1, by omega, ?_, ?_, m3⟩
  · rw [h2, hlast]; simp [Conn.fresh]
  · rw [m2]; rfl

theorem TCPWriter_fatal_fault_witness :
    (TCPWriter [⟨2, none⟩, ⟨3, some GoError.EOF⟩, ⟨1, none⟩] none
      [[1, 2], [3, 4, 5], [6]] true).status = .panicked ∧
    3 - (TCPWriter [⟨2, none⟩, ⟨3, some GoError.EOF⟩, ⟨1, none⟩] none
      [[1, 2], [3, 4, 5], [6]] true).script.length = 1 + 1 ∧
    (TCPWriter [⟨2, none⟩, ⟨3, some GoError.EOF⟩, ⟨1, none⟩] none
      [[1, 2], [3, 4, 5], [6]] true).con.calls.length = 1 + 1 ∧
    (TCPWriter [⟨2, none⟩, ⟨3, some GoError.EOF⟩, ⟨1, none⟩] none
      [[1, 2], [3, 4, 5], [6]] true).con.closes = 0 ∧
    (TCPWriter [⟨2, none⟩, ⟨3, some GoError.EOF⟩, ⟨1, none⟩] none
      [[1, 2], [3, 4, 5], [6]] true).logged = none :=
  TCPWriter_fatal_fault [⟨2, none⟩, ⟨3, some GoError.EOF⟩, ⟨1, none⟩] none
    [[1, 2], [3, 4, 5], [6]] true 1 ⟨3, some GoError.EOF⟩ (by decide) (by decide) (by decide)

/-! ## Line variants, totality of the classifier, and the two framers compared -/

/-- C13. `Readline` is `ReadDelim` with the delimiter byte 10, which is '\n' (0x0A): the
same bytes, the same EOF flag and the same channel left behind (or both never return);
`Readlines` is `ReadDelims` with that delimiter: the same frames and the same closing
of the frame channel. -/
theorem line_variants :
    (∀ recv : ByteChan, Readline recv = ReadDelim recv 10) ∧
    (∀ recv : ByteChan, Readlines recv = ReadDelims recv 10) ∧
    (10 : UInt8).toNat = '\n'.toNat ∧ (10 : UInt8).toNat = 0x0A :=
  ⟨fun _ => rfl, fun _ => rfl, by decide, by decide⟩

/-- C15 (the code departs from it). On a `*net.OpError` whose `Err` field is nil, `IsEOF`
evaluates `oerr.Err.Error()` and faults instead of returning a boolean, whatever the
other fields; the same happens when the inner error is itself such a wrapper. -/
theorem IsEOF_faults_on_nil_inner :
    (∀ (Op Net : String) (Source Addr : Option String),
      IsEOF (some (GoError.OpErrorNilErr Op Net Source Addr)) = none) ∧
    IsEOF (some (GoError.OpErrorNilErr "read" "tcp" none none)) = none ∧
    IsEOF (some (GoError.OpError "read" "tcp" none none
      (GoError.OpErrorNilErr "dial" "" none none))) = none :=
  ⟨fun _ _ _ _ => rfl, rfl, rfl⟩

theorem IsEOF_isSome_of_message (err : GoError) (msg : String) (h : err.Error = some msg) :
    (IsEOF (some err)).isSome = true := by
  cases err with
  | EOF => rfl
  | OpError Op Net Source Addr inner =>
    simp only [GoError.Error] at h
    cases hi : inner.Error with
    | none => rw [hi] at h; simp at h
    | some m =>
      simp only [IsEOF, hi]
      split <;> [rfl; (split <;> rfl)]
  | OpErrorNilErr Op Net Source Addr => simp [GoError.Error] at h
  | other m =>
    simp only [IsEOF]
    split <;> rfl

theorem exists_frames_tail (d : UInt8) (s : List UInt8) :
    ∃ (fs : List (List UInt8)) (tail : List UInt8),
      (∀ f ∈ fs, d ∉ f) ∧ d ∉ tail ∧ s = (fs.map (· ++ [d])).flatten ++ tail := by
  induction s with
  | nil => exact ⟨[], [], by simp, by simp, by simp⟩
  | cons c s ih =>
    obtain ⟨fs, tail, hfs, ht, hs⟩ := ih
    by_cases hc : c = d
    · refine ⟨[] :: fs, tail, ?_, ht, ?_⟩
      · intro f hf
        rcases List.mem_cons.1 hf with hf | hf
        · subst hf; simp
        · exact hfs f hf
      · simp [hc, hs]
    · cases fs with
      | nil =>
        refine ⟨[], c :: tail, by simp, ?_, by simpa using hs⟩
        intro hmem
        rcases List.mem_cons.1 hmem with h | h
        · exact hc h.symm
        · exact ht h
      | cons f fs =>
        refine ⟨(c :: f) :: fs, tail, ?_, ht, ?_⟩
        · intro g hg
          rcases List.mem_cons.1 hg with hg | hg
          · subst hg
            intro hmem
            rcases List.mem_cons.1 hmem with h | h
            · exact hc h.symm
            · exact hfs f (List.mem_cons_self _ _) h
          · exact hfs g (List.mem_cons_of_mem _ hg)
        · simp [hs]

theorem length_le_length_flatten (d : UInt8) (fs : List (List UInt8)) :
    fs.length ≤ ((fs.map (· ++ [d])).flatten).length := by
  induction fs with
  | nil => simp
  | cons f fs ih =>
    simp only [List.map_cons, List.flatten_cons, List.length_append, List.length_cons,
      List.length_nil]
    omega

theorem ReadDelim.successive_frames (d : UInt8) (fs : List (List UInt8))
    (tail : List UInt8) (fuel : Nat) (hfs : ∀ f ∈ fs, d ∉ f) (ht : d ∉ tail)
    (hfuel : fs.length < fuel) :
    ReadDelim.successive d fuel ⟨(fs.map (· ++ [d])).flatten ++ tail, true⟩ = some fs := by
  induction fs generalizing fuel with
  | nil =>
    cases fuel with
    | zero => simp at hfuel
    | succ fuel =>
      have h : ReadDelim ⟨tail, true⟩ d = some (tail, true, ⟨[], true⟩) := by
        simp [ReadDelim, ReadDelim.loop_closed d tail [] ht]
      simp [ReadDelim.successive, h]
  | cons f fs ih =>
    cases fuel with
    | zero => simp at hfuel
    | succ fuel =>
      have hf : d ∉ f := hfs f (List.mem_cons_self _ _)
      have hrest : ∀ g ∈ fs, d ∉ g := fun g hg => hfs g (List.mem_cons_of_mem _ hg)
      have h : ReadDelim ⟨((f :: fs).map (· ++ [d])).flatten ++ tail, true⟩ d =
          some (f, false, ⟨(fs.map (· ++ [d])).flatten ++ tail, true⟩) := by
        have := ReadDelim.loop_delim d true f ((fs.map (· ++ [d])).flatten ++ tail) [] hf
        simpa [ReadDelim] using this
      have hlt : fs.length < fuel := by simpa using hfuel
      simp only [ReadDelim.successive, h, ih fuel hrest hlt]

/-- C16. On a channel that carries `s` and is then closed, successive `ReadDelim` calls
reach a call that returns `EOF = true` within `s.length + 1` calls (so with any `fuel`
above `s.length`), and the byte sequences returned by the calls before it are, in
order, exactly the frames `ReadDelims` emits on a channel carrying `s` then closed. -/
theorem framers_agree (d : UInt8) (s : List UInt8) (fuel : Nat) (hfuel : s.length < fuel) :
    ReadDelim.successive d fuel ⟨s, true⟩ = some (ReadDelims ⟨s, true⟩ d).frames := by
  obtain ⟨fs, tail, hfs, ht, hs⟩ := exists_frames_tail d s
  have hframes : (ReadDelims ⟨s, true⟩ d).frames = fs := by
    have := ReadDelims.loop_frames d true fs tail [] hfs ht
    simp [ReadDelims, hs, this]
  have hlen : fs.length < fuel := by
    have h1 := length_le_length_flatten d fs
    have h2 : s.length = ((fs.map (· ++ [d])).flatten).length + tail.length := by
      rw [hs, List.length_append]
    omega
  rw [hframes, hs]
  exact ReadDelim.successive_frames d fs tail fuel hfs ht hlen

theorem framers_agree_witness :
    ReadDelim.successive 10 6 ⟨[97, 10, 98, 10, 99], true⟩ =
      some (ReadDelims ⟨[97, 10, 98, 10, 99], true⟩ 10).frames :=
  framers_agree 10 [97, 10, 98, 10, 99] 6 (by decide)

/-- C17. The frames `ReadDelims` emits for the bytes `s` never contain the delimiter,
and `s` is these frames, each followed by the delimiter, followed by a tail without
the delimiter: only that undelimited tail is lost.  This holds whether or not the
source channel is closed after `s`. -/
theorem ReadDelims_loses_only_tail (d : UInt8) (s : List UInt8) (closed : Bool) :
    (∀ f ∈ (ReadDelims ⟨s, closed⟩ d).frames, d ∉ f) ∧
    ∃ tail : List UInt8, d ∉ tail ∧
      s = ((ReadDelims ⟨s, closed⟩ d).frames.map (· ++ [d])).flatten ++ tail := by
  obtain ⟨fs, tail, hfs, ht, hs⟩ := exists_frames_tail d s
  have hframes : (ReadDelims ⟨s, closed⟩ d).frames = fs := by
    have := ReadDelims.loop_frames d closed fs tail [] hfs ht
    simp [ReadDelims, hs, this]
  rw [hframes]
  exact ⟨hfs, tail, ht, hs⟩

end Netutils
